import Mathlib

/-!
Verification of the scraping pipeline's core algorithms.

Emails and URLs are modelled as `List Char` (`Str` below); Python string
operations used by the code (`str.replace`, `str.strip(chars)`,
`str.lower`, `str.split(sep)`, substring tests) are embedded as executable
functions on `List Char`.  Python's `str.lower` is modelled as ASCII case
folding (`lowerChar`), which agrees with CPython on every character the
embedded regular expressions can accept.
-/

namespace Scrape

/-- Email / URL strings, modelled as lists of characters. -/
abbrev Str := List Char

/-- ASCII lower-casing of one character (model of Python `str.lower`). -/
def lowerChar (c : Char) : Char :=
  if 65 ≤ c.toNat ∧ c.toNat ≤ 90 then Char.ofNat (c.toNat + 32) else c

/-- `a-z` test. -/
def isLowerAlphaC (c : Char) : Bool :=
  97 ≤ c.toNat && c.toNat ≤ 122

/-- `A-Za-z` test (the character class `[a-zA-Z]`). -/
def isAlphaC (c : Char) : Bool :=
  (65 ≤ c.toNat && c.toNat ≤ 90) || (97 ≤ c.toNat && c.toNat ≤ 122)

/-- `0-9` test. -/
def isDigitC (c : Char) : Bool :=
  48 ≤ c.toNat && c.toNat ≤ 57

/-- The character class `[a-z0-9]`. -/
def isLowerAlnumC (c : Char) : Bool :=
  isLowerAlphaC c || isDigitC c

/-- Contiguous-substring test: model of Python `pat in s`. -/
def isSubstring (pat : Str) (s : Str) : Bool :=
  match s with
  | [] => pat.isEmpty
  | _ :: cs => pat.isPrefixOf s || isSubstring pat cs

/-- Worker for `replaceSub`.  The fuel argument makes the recursion
structural; each step consumes at least one list element and exactly one
unit of fuel, so with initial fuel `s.length` the fuel never runs out. -/
def replaceFuel (pat rep : Str) : Nat → Str → Str
  | _, [] => []
  | 0, s => s
  | n + 1, c :: cs =>
    if pat ≠ [] ∧ pat.isPrefixOf (c :: cs) then
      rep ++ replaceFuel pat rep n ((c :: cs).drop pat.length)
    else c :: replaceFuel pat rep n cs

/-- Model of Python `str.replace(pat, rep)`: left-to-right, non-overlapping. -/
def replaceSub (pat rep : Str) (s : Str) : Str :=
  replaceFuel pat rep s.length s

/-- Model of Python `str.split(sep)` for a one-character separator. -/
def splitOnChar (sep : Char) : Str → List Str
  | [] => [[]]
  | c :: cs =>
    if c = sep then [] :: splitOnChar sep cs
    else
      match splitOnChar sep cs with
      | g :: gs => (c :: g) :: gs
      | [] => [[c]]

/-- Re-join components with a one-character separator (inverse of `splitOnChar`). -/
def joinChar (sep : Char) : List Str → Str
  | [] => []
  | [g] => g
  | g :: gs => g ++ sep :: joinChar sep gs

/-- Model of Python `str.strip(chars)`: drop characters of `sset` from both ends. -/
def stripChars (sset : Str) (s : Str) : Str :=
  (((s.dropWhile (fun c => sset.contains c)).reverse.dropWhile
      (fun c => sset.contains c)).reverse)

/-- Split at the first occurrence of `sep`: `some (before, after)`, or `none`
if `sep` does not occur.  `sep` is not a member of `before`. -/
def splitAtFirst (sep : Char) : Str → Option (Str × Str)
  | [] => none
  | c :: cs =>
    if c = sep then some ([], cs)
    else
      match splitAtFirst sep cs with
      | some (a, b) => some (c :: a, b)
      | none => none

/-! ## `EmailValidator` (contact_details_validation.py) -/

/-- `EmailValidator.personal_domains`. -/
def personal_domains : List Str :=
  [ "gmail.com".toList, "yahoo.com".toList, "hotmail.com".toList,
    "outlook.com".toList, "email.com".toList,
    "aol.com".toList, "icloud.com".toList, "mail.com".toList,
    "protonmail.com".toList, "domain.com".toList,
    "mysite.com".toList, "business.com".toList, "usercentrics.com".toList,
    "snazzymaps.com".toList ]

/-- Component after the first `'@'` up to the next `'@'`, exactly as Python's
`email.split("@")[1]` computes it (`none` when there is no `'@'`). -/
def atIndexOne (email : Str) : Option Str :=
  (splitOnChar '@' email).get? 1

/-- `EmailValidator.is_valid_email`: the general syntax regex
`^[a-zA-Z0-9._%+-]+@[a-zA-Z0-9.-]+\.[a-zA-Z]{2,3}$`, embedded by its
decomposition: one `'@'`; a non-empty local part over `[a-zA-Z0-9._%+-]`;
a domain whose final dot-separated component is 2-3 letters, with a
non-empty remainder over `[a-zA-Z0-9.-]`. -/
def validLocalChar (c : Char) : Bool :=
  isAlphaC c || isDigitC c || c = '.' || c = '_' || c = '%' || c = '+' || c = '-'

/-- Character class `[a-zA-Z0-9.-]` of the general regex's domain. -/
def validDomainChar (c : Char) : Bool :=
  isAlphaC c || isDigitC c || c = '.' || c = '-'

/-- A 2-3 letter component (`[a-zA-Z]{2,3}`). -/
def isTld23 (t : Str) : Bool :=
  (t.length = 2 || t.length = 3) && t.all isAlphaC

/-- `EmailValidator.is_valid_email` (see `validLocalChar`). -/
def is_valid_email (email : Str) : Bool :=
  match splitAtFirst '@' email with
  | none => false
  | some (loc, rest) =>
    decide (loc ≠ []) && loc.all validLocalChar &&
    decide (2 ≤ (splitOnChar '.' rest).length) &&
    isTld23 ((splitOnChar '.' rest).getLastD []) &&
    decide (joinChar '.' ((splitOnChar '.' rest).dropLast) ≠ []) &&
    (joinChar '.' ((splitOnChar '.' rest).dropLast)).all validDomainChar

/-- `EmailValidator.is_business_email`, with the mutable
`custom_business_domains` member passed explicitly. -/
def is_business_email (custom : List Str) (email : Str) : Bool :=
  if '@' ∉ email then false
  else
    match atIndexOne email with
    | none => false
    | some d =>
      let domain := d.map lowerChar
      if domain ∈ custom then true
      else decide (domain ∉ personal_domains)

/-! ## `ContactExtractor._clean_extracted_email` (contact_extraction.py) -/

/-- The characters stripped by `email.strip('\n\r\t<>()[]{}",;:!?')`. -/
def stripSet : Str :=
  ['\n', '\r', '\t', '<', '>', '(', ')', '[', ']',
   Char.ofNat 123, Char.ofNat 125, '"', ',', ';', ':', '!', '?']

/-- `email.replace('&#64;', '@').replace('&amp;', '&')`. -/
def decodeEntities (email : Str) : Str :=
  replaceSub "&amp;".toList "&".toList (replaceSub "&#64;".toList "@".toList email)

/-- The decode / strip / lower-case preprocessing of
`_clean_extracted_email`, before the strict regex match. -/
def cleanedForm (email : Str) : Str :=
  (stripChars stripSet (decodeEntities email)).map lowerChar

/-- Character class `[a-z0-9._-]` of the strict regex's local part. -/
def strictLocalChar (c : Char) : Bool :=
  isLowerAlnumC c || c = '.' || c = '_' || c = '-'

/-- Local part of the strict regex: `[a-z0-9]([a-z0-9._-]*[a-z0-9])?`. -/
def strictLocal (loc : Str) : Bool :=
  match loc with
  | [] => false
  | c :: rest =>
    isLowerAlnumC c &&
    (rest.isEmpty ||
      (rest.all strictLocalChar && isLowerAlnumC (rest.getLastD c)))

/-- Character class `[a-z0-9.-]` of the strict regex's domain head. -/
def strictDomainChar (c : Char) : Bool :=
  isLowerAlnumC c || c = '.' || c = '-'

/-- Domain head of the strict regex: `[a-z0-9]([a-z0-9.-]*[a-z0-9])?`. -/
def strictDomHead (d : Str) : Bool :=
  match d with
  | [] => false
  | c :: rest =>
    isLowerAlnumC c &&
    (rest.isEmpty ||
      (rest.all strictDomainChar && isLowerAlnumC (rest.getLastD c)))

/-- A 2-6 lower-case letter component (`[a-z]{2,6}`). -/
def isTld26 (t : Str) : Bool :=
  (2 ≤ t.length && t.length ≤ 6) && t.all isLowerAlphaC

/-- A 2-3 lower-case letter component (`[a-z]{2,3}`). -/
def isTld23L (t : Str) : Bool :=
  (2 ≤ t.length && t.length ≤ 3) && t.all isLowerAlphaC

/-- Domain of the strict regex:
`[a-z0-9]([a-z0-9.-]*[a-z0-9])?\.[a-z]{2,6}(\.[a-z]{2,3})?`, embedded by
dot-decomposition: either the last component is the 2-6 letter TLD
(no secondary suffix), or the last is a 2-3 letter suffix preceded by a
2-6 letter TLD. -/
def strictDomain (rest : Str) : Bool :=
  (decide (2 ≤ (splitOnChar '.' rest).length) &&
     isTld26 ((splitOnChar '.' rest).getLastD []) &&
     strictDomHead (joinChar '.' (splitOnChar '.' rest).dropLast)) ||
  (decide (3 ≤ (splitOnChar '.' rest).length) &&
     isTld23L ((splitOnChar '.' rest).getLastD []) &&
     isTld26 (((splitOnChar '.' rest).dropLast).getLastD []) &&
     strictDomHead (joinChar '.' ((splitOnChar '.' rest).dropLast).dropLast))

/-- The strict regex of `_clean_extracted_email`:
`^[a-z0-9]([a-z0-9._-]*[a-z0-9])?@[a-z0-9]([a-z0-9.-]*[a-z0-9])?\.[a-z]{2,6}(\.[a-z]{2,3})?$`. -/
def strictMatch (email : Str) : Bool :=
  match splitAtFirst '@' email with
  | none => false
  | some (loc, rest) => strictLocal loc && strictDomain rest

/-- `spam_patterns` of `_clean_extracted_email`. -/
def spam_patterns : List Str :=
  [ "noreply".toList, "no-reply".toList, "donotreply".toList, "example".toList,
    "example.com".toList, "test@".toList, "subscribe".toList, "unsubcribe".toList,
    "unsubscribe".toList, "cookiebot".toList,
    "admin@localhost".toList, "info@example".toList, "contact@example".toList,
    "webmaster@".toList, "commercial".toList, "privacy".toList, "email".toList,
    "domain".toList, "mail".toList ]

/-- `ContactExtractor._clean_extracted_email`, with the validator's
`custom_business_domains` passed explicitly.  Returns `none` for rejected
candidates, `some e` for a cleaned validated email `e`.  Because the strict
regex is anchored at both ends, `re.match(...).group()` is the whole
preprocessed string. -/
def clean_extracted_email (custom : List Str) (email : Str) : Option Str :=
  if email = [] then none
  else if strictMatch (cleanedForm email) then
    if is_valid_email (cleanedForm email) then
      if is_business_email custom (cleanedForm email) then
        if spam_patterns.any (fun p => isSubstring p (cleanedForm email)) then none
        else some (cleanedForm email)
      else none
    else none
  else none

example : clean_extracted_email [] "Jane&#64;Acme-Corp.com".toList
    = some "jane@acme-corp.com".toList := by decide
example : clean_extracted_email [] "user@gmail.com".toList = none := by decide
example : clean_extracted_email [] "contact@mailand-gmbh.de".toList = none := by decide
example : strictMatch "a@b.info".toList = true := by decide
example : is_valid_email "a@b.info".toList = false := by decide
example : is_valid_email "a@b.co.uk".toList = true := by decide

/-! ## `ContactExtractor._extract_emails_from_website` (contact_extraction.py)

The accumulated Python set `all_emails` is modelled as a duplicate-free
list built by `insertNew`; a page's per-page result set is a list of
cleaned emails.  A failed page fetch contributes the empty list (the
per-page `except` branch), which is absorbed by `setUnion`. -/

/-- Add an element to the set model unless already present. -/
def insertNew (acc : List Str) (e : Str) : List Str :=
  if e ∈ acc then acc else acc ++ [e]

/-- `all_emails.update(page_emails)`. -/
def setUnion (acc : List Str) (page : List Str) : List Str :=
  page.foldl insertNew acc

/-- Lexicographic (code-point) comparison, the order of Python `sorted`. -/
def lexLe : Str → Str → Bool
  | [], _ => true
  | _ :: _, [] => false
  | a :: as, b :: bs => a.toNat < b.toNat || (a = b && lexLe as bs)

/-- Sorted insertion for `sortLex`. -/
def insertSorted (e : Str) : List Str → List Str
  | [] => [e]
  | x :: xs => if lexLe e x then e :: x :: xs else x :: insertSorted e xs

/-- `sorted(list(all_emails))`. -/
def sortLex (l : List Str) : List Str := l.foldr insertSorted []

/-- The page loop of `_extract_emails_from_website` (lines 101-120): merge
each page's emails into the accumulated set and break once its size
reaches 5.  Returns the accumulated set together with the number of pages
actually fetched. -/
def extract_emails_loop : List (List Str) → List Str → List Str × Nat
  | [], acc => (acc, 0)
  | p :: ps, acc =>
    let acc2 := setUnion acc p
    if 5 ≤ acc2.length then (acc2, 1)
    else
      let r := extract_emails_loop ps acc2
      (r.1, r.2 + 1)

/-- `ContactExtractor._extract_emails_from_website`, with the candidate
page list (homepage first, then discovered contact pages) abstracted as the
per-page cleaned-email sets.  Returns the final sorted email list and the
number of pages fetched. -/
def extract_emails_from_website (pages : List (List Str)) : List Str × Nat :=
  let r := extract_emails_loop pages []
  (sortLex r.1, r.2)

/-- The set of distinct emails accumulated over the first `k` candidate
pages. -/
def prefixUnion (pages : List (List Str)) (k : Nat) : List Str :=
  (pages.take k).foldl setUnion []

/-! ## `ContactExtractor._discover_contact_pages` (contact_extraction.py) -/

/-- `ContactExtractor.contact_page_patterns`. -/
def contact_page_patterns : List Str :=
  [ "/contact".toList, "/contact-us".toList, "/contacts".toList,
    "/contacto".toList, "/contatti".toList,
    "/about".toList, "/about-us".toList, "/about-company".toList,
    "/chi-siamo".toList, "/quienes-somos".toList,
    "/info".toList, "/information".toList, "/company".toList,
    "/empresa".toList, "/societe".toList,
    "/legal".toList, "/mentions-legales".toList, "/privacy".toList,
    "/impressum".toList,
    "/team".toList, "/staff".toList, "/equipe".toList, "/equipo".toList ]

/-- ASCII upper-casing of one character. -/
def upperChar (c : Char) : Char :=
  if 97 ≤ c.toNat ∧ c.toNat ≤ 122 then Char.ofNat (c.toNat - 32) else c

/-- Worker for `pythonTitle`; the flag records whether the previous
character was a letter. -/
def titleAux : Bool → Str → Str
  | _, [] => []
  | prevAlpha, c :: cs =>
    if isAlphaC c then
      (if prevAlpha then lowerChar c else upperChar c) :: titleAux true cs
    else c :: titleAux false cs

/-- Model of Python `str.title()` (restricted to ASCII letters). -/
def pythonTitle (s : Str) : Str := titleAux false s

/-- Model of Python `str.rstrip('/')`. -/
def rstripSlash (s : Str) : Str :=
  (s.reverse.dropWhile (fun c => c = '/')).reverse

/-- The display name built for a generated contact URL:
`f"Contact {pattern.replace('/', '').replace('-', ' ').title()}"`. -/
def patternPageName (pattern : Str) : Str :=
  "Contact ".toList ++
    pythonTitle (replaceSub "-".toList " ".toList (replaceSub "/".toList [] pattern))

/-- `ContactExtractor._generate_contact_urls_by_pattern`: appends the top
6 patterns to the right-stripped site root. -/
def generate_contact_urls_by_pattern (website_url : Str) : List (Str × Str) :=
  let base_url := rstripSlash website_url
  (contact_page_patterns.take 6).map
    (fun pattern => (patternPageName pattern, base_url ++ pattern))

/-- Order-preserving deduplication by URL (second component), as in
lines 157-163 of contact_extraction.py. -/
def dedupByUrlAux (seen : List Str) : List (Str × Str) → List (Str × Str)
  | [] => []
  | (nm, url) :: rest =>
    if url ∈ seen then dedupByUrlAux seen rest
    else (nm, url) :: dedupByUrlAux (url :: seen) rest

/-- Deduplicate a `(name, url)` list by URL, first occurrence wins. -/
def dedupByUrl (l : List (Str × Str)) : List (Str × Str) := dedupByUrlAux [] l

/-- `ContactExtractor._discover_contact_pages`.  `homepageLinks` is the
result of `_find_contact_links_in_page` on the fetched homepage, or `none`
when the homepage fetch failed (`if not soup`), in which case the code
returns the pattern-generated URLs directly, without deduplication or the
5-entry cut. -/
def discover_contact_pages (website_url : Str)
    (homepageLinks : Option (List (Str × Str))) : List (Str × Str) :=
  match homepageLinks with
  | none => generate_contact_urls_by_pattern website_url
  | some links =>
    let contact_pages :=
      links ++ (if links.length < 3 then generate_contact_urls_by_pattern website_url else [])
    (dedupByUrl contact_pages).take 5

/-! ## `CompanyInfo` (core_datastructures.py) -/

/-- `CompanyInfo`, with `emails` defaulting to the empty list as in
`__post_init__`. -/
structure CompanyInfo where
  name : Str
  url : Str
  website_url : Str := []
  country : Str := []
  emails : List Str := []

/-! ## `DirectoryParser` (directory_parser.py)

A company link element is abstracted by its `href` attribute and the
result of the `_extract_company_name` cascade; `urljoin` is an opaque
resolution function. -/

/-- One element matched by `link_selector`.  `href = none` models a
missing or empty (falsy) `href` attribute. -/
structure PageLink where
  href : Option Str
  extractedName : Str

/-- `DirectoryParser._extract_links_from_page`: walk the matched links,
skip entries without `href`, resolve to an absolute URL, skip URLs already
in the shared seen-set, otherwise record the URL and emit a stub company.
Returns the page's companies and the updated seen-set. -/
def extract_links_from_page (join : Str → Str → Str) (base_url : Str)
    (links : List PageLink) (seen : List Str) : List CompanyInfo × List Str :=
  match links with
  | [] => ([], seen)
  | l :: rest =>
    match l.href with
    | none => extract_links_from_page join base_url rest seen
    | some h =>
      let full_url := join base_url h
      if full_url ∈ seen then extract_links_from_page join base_url rest seen
      else
        let r := extract_links_from_page join base_url rest (full_url :: seen)
        (⟨l.extractedName, full_url, [], [], []⟩ :: r.1, r.2)

/-- The page loop of `DirectoryParser.extract_company_links`, with the
fetched page sequence abstracted as a list of `(base_url, links)` pairs
(pagination decides which pages occur; the seen-set persists across
pages as the instance member `self.seen_urls`). -/
def extract_company_links_loop (join : Str → Str → Str) :
    List (Str × List PageLink) → List Str → List CompanyInfo
  | [], _ => []
  | (base_url, links) :: rest, seen =>
    let r := extract_links_from_page join base_url links seen
    r.1 ++ extract_company_links_loop join rest r.2

/-- `DirectoryParser.extract_company_links` over an arbitrary sequence of
directory pages, starting from the empty seen-set. -/
def extract_company_links (join : Str → Str → Str)
    (pages : List (Str × List PageLink)) : List CompanyInfo :=
  extract_company_links_loop join pages []

/-! ## `ContactExtractor._extract_country_from_profile` (contact_extraction.py)

The six evidence sources fetch and parse the page; each is abstracted by
its result: `m1` the Europages flag+country markup pattern, `m2` the CSS
selector scan (country plus the selector string used as its label),
`m3` the URL locale segment, `m4` structured data, `m5` meta tags,
`m6` the full-text scan.  The guard structure (`if not found_countries`)
and the final priority sort are embedded from the code. -/

/-- The `method_priority` table (lines 694-703), defaulting to 99. -/
def method_priority (label : Str) : Nat :=
  if label = "Europages Pattern".toList then 1
  else if label = "company-address".toList then 2
  else if label = "address".toList then 3
  else if label = "contact-info".toList then 4
  else if label = "URL".toList then 5
  else if label = "Structured Data".toList then 6
  else if label = "Meta Tags".toList then 7
  else if label = "Full Text".toList then 8
  else 99

/-- An entry of `found_countries`: (country, method label, detail). -/
abbrev CountryEntry := Str × Str × Str

/-- Insertion step of the priority sort. -/
def insertByPriority (e : CountryEntry) : List CountryEntry → List CountryEntry
  | [] => [e]
  | x :: xs =>
    if method_priority e.2.1 < method_priority x.2.1 then e :: x :: xs
    else x :: insertByPriority e xs

/-- `found_countries.sort(key=lambda x: method_priority.get(x[1], 99))`. -/
def sortByPriority (l : List CountryEntry) : List CountryEntry :=
  l.foldr insertByPriority []

/-- `ContactExtractor._extract_country_from_profile`.  `fetchOk = false`
models `if not soup: return ""`. -/
def extract_country_from_profile (fetchOk : Bool) (m1 : Option Str)
    (m2 : Option (Str × Str)) (m3 m4 m5 m6 : Option Str) : Str :=
  if ¬ fetchOk then []
  else
    let fc : List CountryEntry :=
      match m1 with
      | some c => [(c, "Europages Pattern".toList, "span with data-v-fc5493f1".toList)]
      | none => []
    let fc := if fc.isEmpty then
        (match m2 with | some (c, sel) => [(c, sel, [])] | none => []) else fc
    let fc := if fc.isEmpty then
        (match m3 with | some c => [(c, "URL".toList, [])] | none => []) else fc
    let fc := if fc.isEmpty then
        (match m4 with | some c => [(c, "Structured Data".toList, [])] | none => []) else fc
    let fc := if fc.isEmpty then
        (match m5 with | some c => [(c, "Meta Tags".toList, [])] | none => []) else fc
    let fc := if fc.isEmpty then
        (match m6 with | some c => [(c, "Full Text".toList, [])] | none => []) else fc
    match sortByPriority fc with
    | [] => []
    | e :: _ => e.1

/-! ## `ContactExtractor._is_valid_website_url` and website resolution -/

/-- `unwanted_domains` (lines 450-454). -/
def unwanted_domains : List Str :=
  [ "hubspotusercontent".toList, "dropbox.com".toList, "drive.google.com".toList,
    "onedrive.live.com".toList, "wetransfer.com".toList, "we.tl".toList,
    "s3.amazonaws.com".toList, "box.com".toList, "sharepoint.com".toList,
    "adform".toList ]

/-- `ContactExtractor._is_valid_website_url`: requires an `http://` or
`https://` prefix and rejects the URL when any blocklist entry occurs as a
substring of the whole lower-cased URL. -/
def is_valid_website_url (url : Str) : Bool :=
  if url = [] ∨ ¬ ("http://".toList.isPrefixOf url ∨ "https://".toList.isPrefixOf url) then
    false
  else
    let lowered_url := url.map lowerChar
    if unwanted_domains.any (fun d => isSubstring d lowered_url) then false
    else true

/-- A fetched Europages profile page, abstracted for website resolution:
the website button's href (`none` when the button is absent or its href is
falsy), and the `(text, href)` pairs of the `a[href^="http"]` elements. -/
structure ProfilePage where
  buttonHref : Option Str
  externalLinks : List (Str × Str)

/-- The fallback keyword list of `_extract_website_from_profile`. -/
def website_keywords : List Str :=
  ["website".toList, "visit".toList, "site".toList, "homepage".toList]

/-- The fallback scan over outbound links (lines 487-493): first link whose
lower-cased text contains a keyword and whose href is truthy and valid. -/
def scanExternalLinks : List (Str × Str) → Option Str
  | [] => none
  | (text, href) :: rest =>
    let link_text := text.map lowerChar
    if website_keywords.any (fun k => isSubstring k link_text) &&
        decide (href ≠ []) && is_valid_website_url href then some href
    else scanExternalLinks rest

/-- `ContactExtractor._extract_website_from_profile`; `page = none` models
a failed profile fetch. -/
def extract_website_from_profile (page : Option ProfilePage) : Option Str :=
  match page with
  | none => none
  | some pg =>
    match pg.buttonHref with
    | some h =>
      if h ≠ [] ∧ is_valid_website_url h then some h
      else scanExternalLinks pg.externalLinks
    | none => scanExternalLinks pg.externalLinks

/-- The `website_url` stored on the company by
`ContactExtractor.extract_website_urls`: the resolved URL, or the empty
string when resolution returned nothing (lines 66-70). -/
def resolve_website_url (page : Option ProfilePage) : Str :=
  match extract_website_from_profile page with
  | some h => h
  | none => []

/-- Modelled from the spec: the host of a URL (the segment after `"://"`
and before the next `'/'`).  The code never computes a host; this
definition expresses the claim's "its host matches the blocklist"
reading for comparison with `is_valid_website_url`. -/
def hostOf (url : Str) : Str :=
  (if "http://".toList.isPrefixOf url then url.drop 7
   else if "https://".toList.isPrefixOf url then url.drop 8
   else url).takeWhile (fun c => c ≠ '/')

/-! ## `DataProcessor.deduplicate_emails` (DataProcessor.py) -/

/-- The inner loop over one company's emails: keep an email only when it
has not been seen globally; returns the kept emails and the grown
seen-set. -/
def dedup_emails_company (seen : List Str) : List Str → List Str × List Str
  | [] => ([], seen)
  | e :: rest =>
    if e ∈ seen then dedup_emails_company seen rest
    else
      let r := dedup_emails_company (e :: seen) rest
      (e :: r.1, r.2)

/-- The company loop of `deduplicate_emails`, threading the global
seen-set. -/
def deduplicate_emails_loop (seen : List Str) : List CompanyInfo → List CompanyInfo
  | [] => []
  | c :: rest =>
    let r := dedup_emails_company seen c.emails
    { c with emails := r.1 } :: deduplicate_emails_loop r.2 rest

/-- `DataProcessor.deduplicate_emails`, the final cross-company pass of
`run_pipeline` (line 170). -/
def deduplicate_emails (companies : List CompanyInfo) : List CompanyInfo :=
  deduplicate_emails_loop [] companies

/-- The length of the final dot-separated component after the first `'@'`
(the top-level-domain component both syntax patterns key on). -/
def tldComponentLength (email : Str) : Nat :=
  match splitAtFirst '@' email with
  | none => 0
  | some (_, rest) => ((splitOnChar '.' rest).getLastD []).length

/-- The six broad substrings of `spam_patterns` that match far beyond
placeholder addresses. -/
def broad_spam_substrings : List Str :=
  [ "mail".toList, "email".toList, "domain".toList,
    "commercial".toList, "privacy".toList, "subscribe".toList ]

/-! # Theorems -/

/-! ## C2: contact-page discovery bound -/

/-- Claim C2 as stated is false at a concrete input: when the homepage
fetch fails outright, `_discover_contact_pages` returns the six
pattern-generated URLs directly, skipping the deduplication and the
5-entry cut, so the result has 6 entries. -/
theorem c2_counterexample :
    ¬ (discover_contact_pages "https://acme.com".toList none).length ≤ 5 := by
  decide

/-- Claim C2 (amended): when the homepage fetch succeeds, the discoverer
returns at most 5 `(label, absolute_url)` entries; when the homepage fetch
fails outright it returns exactly the 6 pattern-generated URLs. -/
theorem c2_discover_bound :
    ∀ (website_url : Str) (links : List (Str × Str)),
      (discover_contact_pages website_url (some links)).length ≤ 5 ∧
      (discover_contact_pages website_url none).length = 6 := by
  intro website_url links
  constructor
  · simp only [discover_contact_pages]
    exact List.length_take_le 5 _
  · simp [discover_contact_pages, generate_contact_urls_by_pattern,
      contact_page_patterns]

/-! ## C7: country evidence priority cascade -/

/-- Claim C7: on a fetched profile page the six evidence sources are
consulted in the fixed order (Europages flag+country pattern, CSS
selectors, URL segment, structured data, meta tags, full text); the first
source that yields a country determines the result, independently of all
lower-priority sources, and if none succeeds the country is empty. -/
theorem c7_country_priority_cascade :
    ∀ (m1 : Option Str) (m2 : Option (Str × Str)) (m3 m4 m5 m6 : Option Str),
      (∀ c, m1 = some c →
        extract_country_from_profile true m1 m2 m3 m4 m5 m6 = c) ∧
      (∀ c sel, m1 = none → m2 = some (c, sel) →
        extract_country_from_profile true m1 m2 m3 m4 m5 m6 = c) ∧
      (∀ c, m1 = none → m2 = none → m3 = some c →
        extract_country_from_profile true m1 m2 m3 m4 m5 m6 = c) ∧
      (∀ c, m1 = none → m2 = none → m3 = none → m4 = some c →
        extract_country_from_profile true m1 m2 m3 m4 m5 m6 = c) ∧
      (∀ c, m1 = none → m2 = none → m3 = none → m4 = none → m5 = some c →
        extract_country_from_profile true m1 m2 m3 m4 m5 m6 = c) ∧
      (∀ c, m1 = none → m2 = none → m3 = none → m4 = none → m5 = none →
        m6 = some c →
        extract_country_from_profile true m1 m2 m3 m4 m5 m6 = c) ∧
      (m1 = none → m2 = none → m3 = none → m4 = none → m5 = none →
        m6 = none →
        extract_country_from_profile true m1 m2 m3 m4 m5 m6 = []) := by
  intro m1 m2 m3 m4 m5 m6
  refine ⟨?_, ?_, ?_, ?_, ?_, ?_, ?_⟩ <;> intros <;> subst_vars <;>
    simp [extract_country_from_profile, sortByPriority, insertByPriority]

/-- Concrete instance of C7: with the four highest-priority sources
silent, the URL-segment source decides the country. -/
theorem c7_witness :
    extract_country_from_profile true none none (some "France".toList)
      none none none = "France".toList :=
  (c7_country_priority_cascade none none (some "France".toList) none none
    none).2.2.1 "France".toList rfl rfl rfl

/-! ## C9: cross-company email deduplication -/

/-- Specification of `dedup_emails_company`: kept emails are new with
respect to the incoming seen-set, kept emails end up in the outgoing
seen-set, and the seen-set only grows. -/
theorem dedup_emails_company_spec :
    ∀ (es : List Str) (seen : List Str),
      (∀ e ∈ (dedup_emails_company seen es).1, e ∉ seen) ∧
      (∀ e ∈ (dedup_emails_company seen es).1, e ∈ (dedup_emails_company seen es).2) ∧
      (∀ u ∈ seen, u ∈ (dedup_emails_company seen es).2) := by
  intro es
  induction es with
  | nil => intro seen; simp [dedup_emails_company]
  | cons e rest ih =>
    intro seen
    by_cases hc : e ∈ seen
    · simpa [dedup_emails_company, hc] using ih seen
    · have h := ih (e :: seen)
      refine ⟨?_, ?_, ?_⟩ <;>
        simp only [dedup_emails_company, hc, if_neg, not_false_iff,
          List.mem_cons]
      · rintro x (rfl | hx)
        · exact hc
        · intro hxs
          exact absurd (List.mem_cons_of_mem e hxs) (h.1 x hx)
      · rintro x (rfl | hx)
        · exact h.2.2 x (List.mem_cons_self x seen)
        · exact h.2.1 x hx
      · intro u hu
        exact h.2.2 u (List.mem_cons_of_mem e hu)

/-- Specification of the company loop: every email kept under any company
is outside the incoming seen-set, and the emitted companies have pairwise
disjoint email lists. -/
theorem deduplicate_emails_loop_spec :
    ∀ (cs : List CompanyInfo) (seen : List Str),
      (∀ c ∈ deduplicate_emails_loop seen cs, ∀ e ∈ c.emails, e ∉ seen) ∧
      List.Pairwise (fun a b => ∀ e ∈ a.emails, e ∉ b.emails)
        (deduplicate_emails_loop seen cs) := by
  intro cs
  induction cs with
  | nil => intro seen; simp [deduplicate_emails_loop]
  | cons c rest ih =>
    intro seen
    have hcomp := dedup_emails_company_spec c.emails seen
    have hloop := ih (dedup_emails_company seen c.emails).2
    constructor
    · simp only [deduplicate_emails_loop, List.mem_cons]
      rintro x (rfl | hx)
      · exact fun e he => hcomp.1 e he
      · intro e he hseen
        exact hloop.1 x hx e he (hcomp.2.2 e hseen)
    · simp only [deduplicate_emails_loop]
      refine List.Pairwise.cons ?_ hloop.2
      intro b hb e he
      intro hbe
      exact hloop.1 b hb e hbe (hcomp.2.1 e he)

/-- Claim C9: after the final cross-company deduplication pass, no email
string appears in the email lists of two different company records — the
email lists of the output are pairwise disjoint. -/
theorem c9_email_dedup_disjoint :
    ∀ (companies : List CompanyInfo),
      List.Pairwise (fun a b => ∀ e ∈ a.emails, e ∉ b.emails)
        (deduplicate_emails companies) :=
  fun companies => (deduplicate_emails_loop_spec companies []).2

/-! ## C6: traverser profile-URL uniqueness -/

/-- Specification of `_extract_links_from_page`: the emitted URLs are
duplicate-free, new with respect to the incoming seen-set, recorded in the
outgoing seen-set, and the seen-set only grows. -/
theorem extract_links_from_page_spec :
    ∀ (join : Str → Str → Str) (base_url : Str) (links : List PageLink)
      (seen : List Str),
      ((extract_links_from_page join base_url links seen).1.map CompanyInfo.url).Nodup ∧
      (∀ c ∈ (extract_links_from_page join base_url links seen).1, c.url ∉ seen) ∧
      (∀ u ∈ seen, u ∈ (extract_links_from_page join base_url links seen).2) ∧
      (∀ c ∈ (extract_links_from_page join base_url links seen).1,
        c.url ∈ (extract_links_from_page join base_url links seen).2) := by
  intro join base_url links
  induction links with
  | nil => intro seen; simp [extract_links_from_page]
  | cons l rest ih =>
    intro seen
    match hl : l.href with
    | none => simpa [extract_links_from_page, hl] using ih seen
    | some h =>
      by_cases hc : join base_url h ∈ seen
      · simpa [extract_links_from_page, hl, hc] using ih seen
      · have hrec := ih (join base_url h :: seen)
        refine ⟨?_, ?_, ?_, ?_⟩ <;>
          simp only [extract_links_from_page, hl, hc, if_neg,
            not_false_iff, List.map_cons, List.mem_cons]
        · refine List.Pairwise.cons ?_ hrec.1
          intro u hu
          simp only [List.mem_map] at hu
          obtain ⟨c, hc1, rfl⟩ := hu
          intro hequ
          exact hrec.2.1 c hc1 (hequ ▸ List.mem_cons_self _ _)
        · rintro c (rfl | hcr)
          · exact hc
          · intro hs
            exact hrec.2.1 c hcr (List.mem_cons_of_mem _ hs)
        · intro u hu
          exact hrec.2.2.1 u (List.mem_cons_of_mem _ hu)
        · rintro c (rfl | hcr)
          · exact hrec.2.2.1 _ (List.mem_cons_self _ _)
          · exact hrec.2.2.2 c hcr

/-- Specification of the traversal loop: output profile URLs are
duplicate-free and new with respect to the incoming seen-set. -/
theorem extract_company_links_loop_spec :
    ∀ (join : Str → Str → Str) (pages : List (Str × List PageLink))
      (seen : List Str),
      ((extract_company_links_loop join pages seen).map CompanyInfo.url).Nodup ∧
      (∀ c ∈ extract_company_links_loop join pages seen, c.url ∉ seen) := by
  intro join pages
  induction pages with
  | nil => intro seen; simp [extract_company_links_loop]
  | cons pg rest ih =>
    intro seen
    obtain ⟨base_url, links⟩ := pg
    have hpage := extract_links_from_page_spec join base_url links seen
    have hloop := ih (extract_links_from_page join base_url links seen).2
    constructor
    · simp only [extract_company_links_loop, List.map_append]
      rw [List.nodup_append]
      refine ⟨hpage.1, hloop.1, ?_⟩
      intro u hu hu2
      simp only [List.mem_map] at hu hu2
      obtain ⟨c, hc1, rfl⟩ := hu
      obtain ⟨c2, hc2, hceq⟩ := hu2
      exact hloop.2 c2 hc2 (hceq ▸ hpage.2.2.2 c hc1)
    · simp only [extract_company_links_loop, List.mem_append]
      rintro c (hcp | hcl)
      · exact hpage.2.1 c hcp
      · intro hs
        exact hloop.2 c hcl (hpage.2.2.1 _ hs)

/-- Claim C6: over any sequence of directory pages, even with the same
href repeated across pages, every absolute profile URL occurs at most once
in the traverser's output (the seen-set rejects duplicates at insertion
time). -/
theorem c6_traverser_url_unique :
    ∀ (join : Str → Str → Str) (pages : List (Str × List PageLink)),
      ((extract_company_links join pages).map CompanyInfo.url).Nodup :=
  fun join pages => (extract_company_links_loop_spec join pages []).1

/-! ## C1: email extraction early stop -/

/-- Inserting into a sorted list grows the length by one. -/
theorem insertSorted_length (e : Str) (l : List Str) :
    (insertSorted e l).length = l.length + 1 := by
  induction l with
  | nil => rfl
  | cons x xs ih => by_cases h : lexLe e x <;> simp [insertSorted, h, ih]

/-- Sorting preserves the length. -/
theorem sortLex_length (l : List Str) : (sortLex l).length = l.length := by
  induction l with
  | nil => rfl
  | cons x xs ih => simp [sortLex, insertSorted_length] at *; omega

/-- Specification of the page loop: started below the threshold on an
accumulator that the full page list would push to 5 or more, the loop
fetches at least one page, stops at the first page where the accumulated
set reaches 5, returns exactly the union over the fetched prefix, and
every strictly shorter prefix stays below 5. -/
theorem extract_emails_loop_spec :
    ∀ (ps : List (List Str)) (acc : List Str),
      acc.length < 5 → 5 ≤ (ps.foldl setUnion acc).length →
      1 ≤ (extract_emails_loop ps acc).2 ∧
      (extract_emails_loop ps acc).2 ≤ ps.length ∧
      (extract_emails_loop ps acc).1 =
        (ps.take (extract_emails_loop ps acc).2).foldl setUnion acc ∧
      5 ≤ (extract_emails_loop ps acc).1.length ∧
      (∀ k, k < (extract_emails_loop ps acc).2 →
        ((ps.take k).foldl setUnion acc).length < 5) := by
  intro ps
  induction ps with
  | nil =>
    intro acc h5 htot
    simp only [List.foldl_nil] at htot
    omega
  | cons p rest ih =>
    intro acc h5 htot
    by_cases hstop : 5 ≤ (setUnion acc p).length
    · have hrw : extract_emails_loop (p :: rest) acc = (setUnion acc p, 1) := by
        simp [extract_emails_loop, hstop]
      rw [hrw]
      refine ⟨le_refl 1, by simp, by simp, hstop, ?_⟩
      intro k hk
      have hk0 : k = 0 := by omega
      subst hk0
      simpa using h5
    · push_neg at hstop
      have htot2 : 5 ≤ (rest.foldl setUnion (setUnion acc p)).length := by
        simpa [List.foldl_cons] using htot
      have ihh := ih (setUnion acc p) hstop htot2
      have hrw : extract_emails_loop (p :: rest) acc =
          ((extract_emails_loop rest (setUnion acc p)).1,
            (extract_emails_loop rest (setUnion acc p)).2 + 1) := by
        simp [extract_emails_loop, Nat.not_le.mpr hstop]
      rw [hrw]
      refine ⟨by simp, ?_, ?_, ihh.2.2.2.1, ?_⟩
      · have := ihh.2.1
        simp only [List.length_cons]
        omega
      · show (extract_emails_loop rest (setUnion acc p)).1 =
          ((p :: rest).take ((extract_emails_loop rest (setUnion acc p)).2 + 1)).foldl
            setUnion acc
        rw [List.take_succ_cons, List.foldl_cons]
        exact ihh.2.2.1
      · intro k hk
        match k with
        | 0 => simpa using h5
        | j + 1 =>
          rw [List.take_succ_cons, List.foldl_cons]
          refine ihh.2.2.2.2 j ?_
          simp only [Prod.snd] at hk
          omega

/-- Claim C1 as stated is false at a concrete input: one candidate page
carrying six distinct valid emails puts the accumulated set at six, so the
returned sorted list does not have exactly 5 elements even though the
pages together contain more than 5. -/
theorem c1_counterexample :
    5 < (prefixUnion [[['a'], ['b'], ['c'], ['d'], ['e'], ['f']]]
          (List.length [[['a'], ['b'], ['c'], ['d'], ['e'], ['f']]])).length ∧
    (extract_emails_from_website
        [[['a'], ['b'], ['c'], ['d'], ['e'], ['f']]]).1.length ≠ 5 := by
  decide

/-- Claim C1 (amended): when the candidate pages together contain more
than 5 distinct emails, extraction stops at the first page on which the
accumulated cross-page set reaches at least 5 distinct emails (every
earlier prefix is below 5 and no later page is fetched), and the returned
sorted list holds the distinct emails of the fetched prefix — at least 5
of them, but possibly more than 5 when the final page overshoots. -/
theorem c1_email_extraction_early_stop :
    ∀ (pages : List (List Str)),
      5 < (prefixUnion pages pages.length).length →
      1 ≤ (extract_emails_from_website pages).2 ∧
      (extract_emails_from_website pages).2 ≤ pages.length ∧
      (extract_emails_from_website pages).1 =
        sortLex (prefixUnion pages (extract_emails_from_website pages).2) ∧
      5 ≤ (extract_emails_from_website pages).1.length ∧
      (∀ k, k < (extract_emails_from_website pages).2 →
        (prefixUnion pages k).length < 5) := by
  intro pages htot
  have htot2 : 5 ≤ (pages.foldl setUnion []).length := by
    have : pages.take pages.length = pages := List.take_length pages
    simp only [prefixUnion, this] at htot
    omega
  have h := extract_emails_loop_spec pages [] (by simp) htot2
  have hfst : (extract_emails_from_website pages).1 =
      sortLex (extract_emails_loop pages []).1 := rfl
  have hsnd : (extract_emails_from_website pages).2 =
      (extract_emails_loop pages []).2 := rfl
  refine ⟨?_, ?_, ?_, ?_, ?_⟩
  · rw [hsnd]; exact h.1
  · rw [hsnd]; exact h.2.1
  · rw [hfst, hsnd, prefixUnion, ← h.2.2.1]
  · rw [hfst, sortLex_length]; exact h.2.2.2.1
  · intro k hk
    rw [hsnd] at hk
    exact h.2.2.2.2 k hk

/-- Concrete instance of C1 (amended): two pages of three emails each
exceed the threshold, and at least five emails are returned. -/
theorem c1_witness :
    5 < (prefixUnion [[['a'], ['b'], ['c']], [['d'], ['e'], ['f']]] 2).length ∧
    5 ≤ (extract_emails_from_website
          [[['a'], ['b'], ['c']], [['d'], ['e'], ['f']]]).1.length :=
  ⟨by decide,
    (c1_email_extraction_early_stop [[['a'], ['b'], ['c']], [['d'], ['e'], ['f']]]
      (by decide)).2.2.2.1⟩

/-! ## C8: website URL validation -/

/-- Every URL produced by the outbound-link fallback scan passed
`_is_valid_website_url`. -/
theorem scanExternalLinks_valid :
    ∀ (links : List (Str × Str)) (u : Str),
      scanExternalLinks links = some u → is_valid_website_url u = true := by
  intro links
  induction links with
  | nil => intro u hu; cases hu
  | cons l rest ih =>
    intro u hu
    obtain ⟨text, href⟩ := l
    by_cases hcond : (website_keywords.any (fun k => isSubstring k (text.map lowerChar)) &&
        decide (href ≠ []) && is_valid_website_url href) = true
    · simp only [scanExternalLinks, hcond, if_true, Option.some.injEq] at hu
      subst hu
      simp only [Bool.and_eq_true] at hcond
      exact hcond.2
    · simp only [scanExternalLinks, hcond, if_false, Bool.false_eq_true] at hu
      exact ih u hu

/-- Claim C8 (amended): a candidate website URL is rejected exactly when
it lacks an `http://`/`https://` prefix or some blocklist entry occurs as
a substring anywhere in the lower-cased URL (not merely in its host);
every URL the profile resolver returns passed this validation; and when
nothing passes, the stored `website_url` is the empty string. -/
theorem c8_website_url_validation :
    ∀ (url : Str) (page : Option ProfilePage),
      (is_valid_website_url url = false ↔
        (¬ ("http://".toList.isPrefixOf url ∨ "https://".toList.isPrefixOf url) ∨
          ∃ d ∈ unwanted_domains, isSubstring d (url.map lowerChar) = true)) ∧
      (∀ u, extract_website_from_profile page = some u →
        is_valid_website_url u = true) ∧
      (extract_website_from_profile page = none → resolve_website_url page = []) := by
  intro url page
  refine ⟨?_, ?_, ?_⟩
  · by_cases h1 : url = [] ∨ ¬ ("http://".toList.isPrefixOf url ∨ "https://".toList.isPrefixOf url)
    · have hv : is_valid_website_url url = false := by
        simp only [is_valid_website_url, if_pos h1]
      rw [hv]
      simp only [eq_self_iff_true, true_iff]
      rcases h1 with rfl | hnp
      · exact Or.inl (by decide)
      · exact Or.inl hnp
    · push_neg at h1
      obtain ⟨hne, hpre⟩ := h1
      by_cases h2 : unwanted_domains.any (fun d => isSubstring d (url.map lowerChar)) = true
      · have hv : is_valid_website_url url = false := by
          simp only [is_valid_website_url]
          rw [if_neg (by push_neg; exact ⟨hne, hpre⟩)]
          simp [h2]
        rw [hv]
        simp only [eq_self_iff_true, true_iff]
        obtain ⟨d, hd, hsub⟩ := List.any_eq_true.mp h2
        exact Or.inr ⟨d, hd, hsub⟩
      · have hv : is_valid_website_url url = true := by
          simp only [is_valid_website_url]
          rw [if_neg (by push_neg; exact ⟨hne, hpre⟩)]
          simp [h2]
        rw [hv]
        constructor
        · intro hfalse; exact absurd hfalse (by simp)
        · rintro (hnp | ⟨d, hd, hsub⟩)
          · exact absurd hpre hnp
          · exact absurd (List.any_eq_true.mpr ⟨d, hd, hsub⟩) h2
  · intro u hu
    match page with
    | none => cases hu
    | some pg =>
      match hb : pg.buttonHref with
      | some b =>
        simp only [extract_website_from_profile, hb] at hu
        by_cases hcond : b ≠ [] ∧ is_valid_website_url b = true
        · rw [if_pos hcond] at hu
          obtain rfl : b = u := by injection hu
          exact hcond.2
        · rw [if_neg hcond] at hu
          exact scanExternalLinks_valid pg.externalLinks u hu
      | none =>
        simp only [extract_website_from_profile, hb] at hu
        exact scanExternalLinks_valid pg.externalLinks u hu
  · intro hnone
    simp [resolve_website_url, hnone]

/-- Claim C8 as stated is false at a concrete input: a URL whose host is
clean but whose path contains a blocklist entry is rejected by the code,
although the claim predicts acceptance (scheme present, host not on the
blocklist). -/
theorem c8_counterexample :
    is_valid_website_url "https://acme.com/files/dropbox.com".toList = false ∧
    "https://".toList.isPrefixOf "https://acme.com/files/dropbox.com".toList = true ∧
    unwanted_domains.all
      (fun d => ! isSubstring d (hostOf "https://acme.com/files/dropbox.com".toList)) = true := by
  decide

/-- Concrete instance of C8 (amended): with no website button and no
outbound links, resolution yields `none` and the stored `website_url` is
empty. -/
theorem c8_witness : resolve_website_url (some ⟨none, []⟩) = [] :=
  (c8_website_url_validation [] (some ⟨none, []⟩)).2.2 rfl

/-! ## List and character lemmas for the email-cleaning proofs -/

/-- `List.all` is monotone along a pointwise implication. -/
theorem all_mono {p q : Char → Bool} (h : ∀ c, p c = true → q c = true) :
    ∀ l : Str, l.all p = true → l.all q = true := by
  intro l hl
  rw [List.all_eq_true] at hl ⊢
  exact fun c hc => h c (hl c hc)

/-- Strict local characters are general local characters. -/
theorem strictLocalChar_valid {c : Char} (h : strictLocalChar c = true) :
    validLocalChar c = true := by
  simp only [strictLocalChar, isLowerAlnumC, isLowerAlphaC, isDigitC,
    Bool.or_eq_true, Bool.and_eq_true, decide_eq_true_eq] at h
  simp only [validLocalChar, isAlphaC, isDigitC, Bool.or_eq_true,
    Bool.and_eq_true, decide_eq_true_eq]
  tauto

/-- Strict domain characters are general domain characters. -/
theorem strictDomainChar_valid {c : Char} (h : strictDomainChar c = true) :
    validDomainChar c = true := by
  simp only [strictDomainChar, isLowerAlnumC, isLowerAlphaC, isDigitC,
    Bool.or_eq_true, Bool.and_eq_true, decide_eq_true_eq] at h
  simp only [validDomainChar, isAlphaC, isDigitC, Bool.or_eq_true,
    Bool.and_eq_true, decide_eq_true_eq]
  tauto

/-- Strict domain characters are strict local characters. -/
theorem strictDomainChar_local {c : Char} (h : strictDomainChar c = true) :
    strictLocalChar c = true := by
  simp only [strictDomainChar, strictLocalChar, isLowerAlnumC, isLowerAlphaC,
    isDigitC, Bool.or_eq_true, Bool.and_eq_true, decide_eq_true_eq] at h ⊢
  tauto

/-- Lower-case letters are strict domain characters. -/
theorem isLowerAlphaC_strictDomainChar {c : Char} (h : isLowerAlphaC c = true) :
    strictDomainChar c = true := by
  simp only [strictDomainChar, isLowerAlnumC, Bool.or_eq_true]
  tauto

/-- Lower-case letters are letters. -/
theorem isLowerAlphaC_isAlphaC {c : Char} (h : isLowerAlphaC c = true) :
    isAlphaC c = true := by
  simp only [isLowerAlphaC, Bool.and_eq_true, decide_eq_true_eq] at h
  simp only [isAlphaC, Bool.or_eq_true, Bool.and_eq_true, decide_eq_true_eq]
  tauto

/-- Lower-case alphanumerics are strict local characters. -/
theorem isLowerAlnumC_strictLocalChar {c : Char} (h : isLowerAlnumC c = true) :
    strictLocalChar c = true := by
  simp only [strictLocalChar, Bool.or_eq_true]
  tauto

/-- Lower-case alphanumerics are strict domain characters. -/
theorem isLowerAlnumC_strictDomainChar {c : Char} (h : isLowerAlnumC c = true) :
    strictDomainChar c = true := by
  simp only [strictDomainChar, Bool.or_eq_true]
  tauto

/-- Decomposition of a successful `splitAtFirst`. -/
theorem splitAtFirst_eq_some (sep : Char) :
    ∀ (s a b : Str), splitAtFirst sep s = some (a, b) →
      s = a ++ sep :: b ∧ sep ∉ a := by
  intro s
  induction s with
  | nil => intro a b h; cases h
  | cons c cs ih =>
    intro a b h
    by_cases hc : c = sep
    · subst hc
      simp only [splitAtFirst, if_pos rfl, Option.some.injEq, Prod.mk.injEq] at h
      obtain ⟨rfl, rfl⟩ := h
      exact ⟨rfl, by simp⟩
    · simp only [splitAtFirst, if_neg hc] at h
      cases hsp : splitAtFirst sep cs with
      | none => rw [hsp] at h; cases h
      | some ab =>
        obtain ⟨a2, b2⟩ := ab
        rw [hsp] at h
        simp only [Option.some.injEq, Prod.mk.injEq] at h
        obtain ⟨ha, hb⟩ := h
        obtain ⟨heq, hmem⟩ := ih a2 b2 hsp
        subst ha
        subst hb
        constructor
        · rw [heq]; rfl
        · intro hm
          rcases List.mem_cons.mp hm with rfl | hm2
          · exact hc rfl
          · exact hmem hm2

/-- `splitOnChar` never returns the empty list. -/
theorem splitOnChar_ne_nil (sep : Char) : ∀ s, splitOnChar sep s ≠ [] := by
  intro s
  induction s with
  | nil => simp [splitOnChar]
  | cons c cs ih =>
    by_cases hc : c = sep
    · simp [splitOnChar, hc]
    · simp only [splitOnChar, if_neg hc]
      cases hsp : splitOnChar sep cs with
      | nil => simp
      | cons g gs => simp

/-- A separator-free string splits into a single component. -/
theorem splitOnChar_nomem (sep : Char) :
    ∀ s, sep ∉ s → splitOnChar sep s = [s] := by
  intro s
  induction s with
  | nil => intro _; rfl
  | cons c cs ih =>
    intro h
    have hc : ¬ c = sep := fun he => h (he ▸ List.mem_cons_self c cs)
    simp only [splitOnChar, if_neg hc]
    rw [ih (fun hm => h (List.mem_cons_of_mem c hm))]

/-- Splitting around a single separator occurrence yields two components. -/
theorem splitOnChar_sandwich (sep : Char) :
    ∀ (a b : Str), sep ∉ a → sep ∉ b →
      splitOnChar sep (a ++ sep :: b) = [a, b] := by
  intro a
  induction a with
  | nil =>
    intro b _ hb
    have h1 : splitOnChar sep b = [b] := splitOnChar_nomem sep b hb
    simp [splitOnChar, h1]
  | cons c a2 ih =>
    intro b ha hb
    have hc : ¬ c = sep := fun he => ha (he ▸ List.mem_cons_self c a2)
    have h2 := ih b (fun hm => ha (List.mem_cons_of_mem c hm)) hb
    simp only [List.cons_append, splitOnChar, if_neg hc, List.append_eq, h2]

/-- `joinChar` is a left inverse of `splitOnChar`. -/
theorem joinChar_splitOnChar (sep : Char) :
    ∀ s, joinChar sep (splitOnChar sep s) = s := by
  intro s
  induction s with
  | nil => rfl
  | cons c cs ih =>
    by_cases hc : c = sep
    · subst hc
      simp only [splitOnChar, if_pos rfl]
      cases hsp : splitOnChar c cs with
      | nil => exact absurd hsp (splitOnChar_ne_nil c cs)
      | cons g gs =>
        rw [hsp] at ih
        simp only [joinChar, List.nil_append]
        rw [ih]
    · simp only [splitOnChar, if_neg hc]
      cases hsp : splitOnChar sep cs with
      | nil => exact absurd hsp (splitOnChar_ne_nil sep cs)
      | cons g gs =>
        rw [hsp] at ih
        cases gs with
        | nil => simp only [joinChar] at ih ⊢; rw [ih]
        | cons g2 gs2 =>
          simp only [joinChar, List.cons_append] at ih ⊢
          rw [← ih]

/-- Joining after appending a final component. -/
theorem joinChar_append_singleton (sep : Char) :
    ∀ (gs : List Str) (t : Str), gs ≠ [] →
      joinChar sep (gs ++ [t]) = joinChar sep gs ++ sep :: t := by
  intro gs
  induction gs with
  | nil => intro t h; exact absurd rfl h
  | cons g gs2 ih =>
    intro t _
    cases gs2 with
    | nil => rfl
    | cons g2 gs3 =>
      have h2 := ih t (by simp)
      simp only [List.cons_append, joinChar, List.append_eq] at h2 ⊢
      rw [h2]
      simp [List.append_assoc]

/-- A non-empty list is its front followed by its last element. -/
theorem dropLast_append_getLastD {α : Type} :
    ∀ (l : List α) (d : α), l ≠ [] → l.dropLast ++ [l.getLastD d] = l := by
  intro l
  induction l with
  | nil => intro d h; exact absurd rfl h
  | cons a l2 ih =>
    intro d _
    cases l2 with
    | nil => rfl
    | cons b l3 =>
      rw [List.getLastD_cons]
      have h2 := ih a (by simp)
      rw [show (a :: b :: l3).dropLast = a :: (b :: l3).dropLast from rfl]
      rw [List.cons_append, h2]

/-- Mapping a function that fixes every element is the identity. -/
theorem map_id_of_fixed {f : Char → Char} :
    ∀ l : Str, (∀ c ∈ l, f c = c) → l.map f = l := by
  intro l
  induction l with
  | nil => intro _; rfl
  | cons a l2 ih =>
    intro h
    simp only [List.map_cons]
    rw [h a (List.mem_cons_self a l2), ih (fun c hc => h c (List.mem_cons_of_mem a hc))]

/-- Identifying two decompositions around a unique occurrence. -/
theorem append_cons_unique (x : Char) :
    ∀ (a b c d : Str), a ++ x :: b = c ++ x :: d → x ∉ a → x ∉ b →
      a = c ∧ b = d := by
  intro a
  induction a with
  | nil =>
    intro b c d heq _ hxb
    cases c with
    | nil =>
      simp only [List.nil_append, List.cons.injEq] at heq
      exact ⟨rfl, heq.2⟩
    | cons y c2 =>
      simp only [List.nil_append, List.cons_append, List.cons.injEq] at heq
      obtain ⟨rfl, heq2⟩ := heq
      have hxbm : x ∈ b := by
        rw [heq2]
        exact List.mem_append_right c2 (List.mem_cons_self x d)
      exact absurd hxbm hxb
  | cons a0 a2 ih =>
    intro b c d heq hxa hxb
    cases c with
    | nil =>
      simp only [List.cons_append, List.nil_append, List.cons.injEq] at heq
      exact absurd (heq.1 ▸ List.mem_cons_self a0 a2) hxa
    | cons c0 c2 =>
      simp only [List.cons_append, List.cons.injEq] at heq
      obtain ⟨rfl, heq2⟩ := heq
      obtain ⟨rfl, rfl⟩ := ih b c2 d heq2 (fun hm => hxa (List.mem_cons_of_mem a0 hm)) hxb
      exact ⟨rfl, rfl⟩

/-! ## Replace / strip / lower-case lemmas -/

/-- Unfold a `contains`-test hypothesis into an if-condition refutation. -/
theorem notContains_of_eq_false {l : Str} {c : Char} (h : l.contains c = false) :
    ¬ (l.contains c = true) := by
  intro hc
  rw [h] at hc
  exact absurd hc (by decide)

/-- `replaceFuel` is the identity when the pattern's first character never
occurs in the string. -/
theorem replaceFuel_head_notMem (pat rep : Str) (hd : Char)
    (hh : pat.head? = some hd) :
    ∀ (n : Nat) (s : Str), hd ∉ s → replaceFuel pat rep n s = s := by
  cases pat with
  | nil => cases hh
  | cons h0 pt =>
    obtain rfl : h0 = hd := by simpa using hh
    intro n
    induction n with
    | zero => intro s _; cases s <;> rfl
    | succ n ih =>
      intro s hm
      cases s with
      | nil => rfl
      | cons c cs =>
        have hne : h0 ≠ c := fun he => hm (he ▸ List.mem_cons_self c cs)
        have hpref : (h0 :: pt).isPrefixOf (c :: cs) = false := by
          simp [List.isPrefixOf_cons₂, hne]
        simp only [replaceFuel]
        rw [if_neg (fun hcon => by
          have h2 := hcon.2
          rw [hpref] at h2
          exact absurd h2 (by decide))]
        rw [ih cs (fun hmm => hm (List.mem_cons_of_mem c hmm))]

/-- A prefix avoiding `x` of `pre ++ x :: dom` fits inside `pre`. -/
theorem isPrefixOf_append_cons_le (x : Char) :
    ∀ (pat pre dom : Str), pat.isPrefixOf (pre ++ x :: dom) = true → x ∉ pat →
      pat.length ≤ pre.length := by
  intro pat
  induction pat with
  | nil => intro pre dom _ _; simp
  | cons a pt ih =>
    intro pre dom hpre hx
    cases pre with
    | nil =>
      simp only [List.nil_append, List.isPrefixOf_cons₂, Bool.and_eq_true,
        beq_iff_eq] at hpre
      exact absurd (hpre.1 ▸ List.mem_cons_self a pt) hx
    | cons p pre2 =>
      simp only [List.cons_append, List.isPrefixOf_cons₂, Bool.and_eq_true,
        beq_iff_eq] at hpre
      have := ih pre2 dom hpre.2 (fun hm => hx (List.mem_cons_of_mem a hm))
      simp only [List.length_cons]
      omega

/-- Dropping fewer elements than the first part's length. -/
theorem drop_append_of_le {α : Type} :
    ∀ (l1 l2 : List α) (k : Nat), k ≤ l1.length →
      (l1 ++ l2).drop k = l1.drop k ++ l2 := by
  intro l1
  induction l1 with
  | nil =>
    intro l2 k hk
    simp only [List.length_nil, Nat.le_zero] at hk
    subst hk
    rfl
  | cons a l1 ih =>
    intro l2 k hk
    cases k with
    | zero => rfl
    | succ k2 =>
      simp only [List.cons_append, List.drop_succ_cons]
      exact ih l2 k2 (by simpa using hk)

/-- String replacement with a pattern starting in `'&'` and not containing
`'@'` keeps an `'&'`-free suffix after an `'@'` intact. -/
theorem replaceFuel_boundary (pat rep : Str) (hh : pat.head? = some '&')
    (hx : '@' ∉ pat) :
    ∀ (n : Nat) (pre dom : Str), '&' ∉ dom → (pre ++ '@' :: dom).length ≤ n →
      ∃ pre2, replaceFuel pat rep n (pre ++ '@' :: dom) = pre2 ++ '@' :: dom := by
  intro n
  induction n with
  | zero =>
    intro pre dom _ hlen
    exfalso
    simp only [List.length_append, List.length_cons] at hlen
    omega
  | succ n ih =>
    intro pre dom hdom hlen
    cases pre with
    | nil =>
      cases pat with
      | nil => cases hh
      | cons h0 pt =>
        obtain rfl : h0 = '&' := by simpa using hh
        have hpref : ('&' :: pt).isPrefixOf ('@' :: dom) = false := by
          simp [List.isPrefixOf_cons₂]
        refine ⟨[], ?_⟩
        simp only [List.nil_append, replaceFuel]
        rw [if_neg (fun hcon => by
          have h2 := hcon.2
          rw [hpref] at h2
          exact absurd h2 (by decide))]
        rw [replaceFuel_head_notMem ('&' :: pt) rep '&' rfl n dom hdom]
    | cons p pre2 =>
      by_cases hpref : pat.isPrefixOf (p :: pre2 ++ '@' :: dom) = true
      · have hpe : pat ≠ [] := by
          cases pat with
          | nil => cases hh
          | cons h0 pt => simp
        have hle : pat.length ≤ (p :: pre2).length :=
          isPrefixOf_append_cons_le '@' pat (p :: pre2) dom (by simpa using hpref) hx
        have hdrop : ((p :: pre2) ++ '@' :: dom).drop pat.length
            = (p :: pre2).drop pat.length ++ '@' :: dom :=
          drop_append_of_le (p :: pre2) ('@' :: dom) pat.length hle
        have hlen2 : ((p :: pre2).drop pat.length ++ '@' :: dom).length ≤ n := by
          have h0 : 0 < pat.length := List.length_pos.mpr hpe
          simp only [List.length_append, List.length_cons, List.length_drop] at hlen ⊢
          simp only [List.length_cons] at hle
          omega
        obtain ⟨pre3, heq⟩ := ih ((p :: pre2).drop pat.length) dom hdom hlen2
        refine ⟨rep ++ pre3, ?_⟩
        simp only [List.cons_append, replaceFuel, List.append_eq]
        rw [if_pos ⟨hpe, hpref⟩]
        have hdrop2 : (p :: (pre2 ++ '@' :: dom)).drop pat.length
            = (p :: pre2).drop pat.length ++ '@' :: dom := by
          rw [← List.cons_append]
          exact hdrop
        rw [hdrop2, heq, List.append_assoc]
      · obtain ⟨pre3, heq⟩ := ih pre2 dom hdom (by
          simp only [List.length_append, List.length_cons] at hlen ⊢
          omega)
        refine ⟨p :: pre3, ?_⟩
        simp only [List.cons_append, replaceFuel, List.append_eq]
        rw [if_neg (fun hcon => hpref hcon.2)]
        rw [heq]

/-- Entity decoding keeps an `'&'`-free suffix after an `'@'` intact. -/
theorem decodeEntities_boundary (pre dom : Str) (h : '&' ∉ dom) :
    ∃ pre2, decodeEntities (pre ++ '@' :: dom) = pre2 ++ '@' :: dom := by
  obtain ⟨p1, h1⟩ := replaceFuel_boundary "&#64;".toList "@".toList (by decide) (by decide)
    (pre ++ '@' :: dom).length pre dom h (le_refl _)
  obtain ⟨p2, h2⟩ := replaceFuel_boundary "&amp;".toList "&".toList (by decide) (by decide)
    (p1 ++ '@' :: dom).length p1 dom h (le_refl _)
  refine ⟨p2, ?_⟩
  simp only [decodeEntities, replaceSub]
  rw [h1, h2]

/-- Entity decoding is the identity on `'&'`-free strings. -/
theorem decodeEntities_fixed (s : Str) (h : '&' ∉ s) : decodeEntities s = s := by
  simp only [decodeEntities, replaceSub]
  rw [replaceFuel_head_notMem "&#64;".toList "@".toList '&' (by decide) s.length s h]
  rw [replaceFuel_head_notMem "&amp;".toList "&".toList '&' (by decide) s.length s h]

/-- `dropWhile` cannot cross an element that fails the predicate. -/
theorem dropWhile_append_cons {p : Char → Bool} (x : Char) (hx : p x = false) :
    ∀ (a b : Str), ∃ a2, (a ++ x :: b).dropWhile p = a2 ++ x :: b := by
  intro a b
  induction a with
  | nil =>
    refine ⟨[], ?_⟩
    simp [List.dropWhile_cons, hx]
  | cons c a2 ih =>
    by_cases hc : p c = true
    · obtain ⟨a3, h3⟩ := ih
      refine ⟨a3, ?_⟩
      simp only [List.cons_append, List.dropWhile_cons, hc, if_true]
      exact h3
    · refine ⟨c :: a2, ?_⟩
      simp only [List.cons_append, List.dropWhile_cons, hc]
      simp

/-- Stripping keeps an `'@'` with a strip-free last character intact,
losing only leading characters. -/
theorem stripChars_append_cons (pre dom : Str) (hd : dom ≠ [])
    (hl : stripSet.contains (dom.getLastD '@') = false) :
    ∃ pre2, stripChars stripSet (pre ++ '@' :: dom) = pre2 ++ '@' :: dom := by
  have hat : stripSet.contains '@' = false := by decide
  obtain ⟨p1, h1⟩ :=
    dropWhile_append_cons (p := fun c => stripSet.contains c) '@' hat pre dom
  refine ⟨p1, ?_⟩
  simp only [stripChars]
  rw [h1]
  cases hrd : dom.reverse with
  | nil => exact absurd (by simpa using congrArg List.reverse hrd) hd
  | cons lst rest =>
    have hdom2 : dom = rest.reverse ++ [lst] := by
      have := congrArg List.reverse hrd
      simpa using this
    have hlst : dom.getLastD '@' = lst := by
      rw [hdom2]
      exact List.getLastD_concat '@' lst rest.reverse
    have hstop : ((p1 ++ '@' :: dom).reverse).dropWhile (fun c => stripSet.contains c)
        = (p1 ++ '@' :: dom).reverse := by
      have hrev : (p1 ++ '@' :: dom).reverse = lst :: (rest ++ '@' :: p1.reverse) := by
        rw [List.reverse_append]
        rw [show ('@' :: dom).reverse = dom.reverse ++ ['@'] from by simp]
        rw [hrd]
        simp
      rw [hrev, List.dropWhile_cons,
        if_neg (notContains_of_eq_false (by rw [hlst] at hl; exact hl))]
    rw [hstop, List.reverse_reverse]

/-- Stripping is the identity when no character belongs to the strip set. -/
theorem stripChars_fixed (sset s : Str) (hs : s ≠ [])
    (hall : ∀ c ∈ s, sset.contains c = false) :
    stripChars sset s = s := by
  cases s with
  | nil => exact absurd rfl hs
  | cons c cs =>
    have h1 : (c :: cs).dropWhile (fun c => sset.contains c) = c :: cs := by
      rw [List.dropWhile_cons,
        if_neg (notContains_of_eq_false (hall c (List.mem_cons_self c cs)))]
    simp only [stripChars]
    rw [h1]
    cases hrd : (c :: cs).reverse with
    | nil => simp at hrd
    | cons lst rest =>
      have hmem : lst ∈ c :: cs := by
        have h2 : lst ∈ (c :: cs).reverse := by
          rw [hrd]; exact List.mem_cons_self lst rest
        exact List.mem_reverse.mp h2
      have hstop : (lst :: rest).dropWhile (fun c => sset.contains c)
          = lst :: rest := by
        rw [List.dropWhile_cons,
          if_neg (notContains_of_eq_false (hall lst hmem))]
      rw [hstop, ← hrd, List.reverse_reverse]

/-- Characters accepted by the strict regex are fixed by lower-casing. -/
theorem tame_lowerChar (c : Char)
    (h : (strictLocalChar c || c = '@') = true) : lowerChar c = c := by
  simp only [strictLocalChar, isLowerAlnumC, isLowerAlphaC, isDigitC,
    Bool.or_eq_true, Bool.and_eq_true, decide_eq_true_eq] at h
  rcases h with ((((ha | hd) | h1) | h2) | h3) | h4
  · simp only [lowerChar]
    rw [if_neg (by omega)]
  · simp only [lowerChar]
    rw [if_neg (by omega)]
  · subst h1; decide
  · subst h2; decide
  · subst h3; decide
  · subst h4; decide

/-- Characters accepted by the strict regex are never stripped. -/
theorem tame_not_strip (c : Char)
    (h : (strictLocalChar c || c = '@') = true) :
    stripSet.contains c = false := by
  by_contra hc
  have hmem : c ∈ stripSet := by
    rcases hb : stripSet.contains c with _ | _
    · exact absurd hb hc
    · simpa using hb
  simp only [stripSet, List.mem_cons, List.not_mem_nil, or_false] at hmem
  rcases hmem with rfl | rfl | rfl | rfl | rfl | rfl | rfl | rfl | rfl | rfl |
    rfl | rfl | rfl | rfl | rfl | rfl | rfl <;>
    exact absurd h (by decide)

/-- A character that lower-cases to `'m'` is never stripped. -/
theorem lowerChar_m_not_strip (c : Char) (h : lowerChar c = 'm') :
    stripSet.contains c = false := by
  by_contra hc
  have hmem : c ∈ stripSet := by
    rcases hb : stripSet.contains c with _ | _
    · exact absurd hb hc
    · simpa using hb
  simp only [stripSet, List.mem_cons, List.not_mem_nil, or_false] at hmem
  rcases hmem with rfl | rfl | rfl | rfl | rfl | rfl | rfl | rfl | rfl | rfl |
    rfl | rfl | rfl | rfl | rfl | rfl | rfl <;>
    exact absurd h (by decide)

/-! ## Structure of strict-regex matches -/

/-- A strict local part is non-empty and uses only local characters. -/
theorem strictLocal_all (l : Str) (h : strictLocal l = true) :
    l ≠ [] ∧ l.all strictLocalChar = true := by
  cases l with
  | nil => exact absurd h (by decide)
  | cons c rest =>
    simp only [strictLocal, Bool.and_eq_true, Bool.or_eq_true] at h
    obtain ⟨hc, hrest⟩ := h
    refine ⟨by simp, ?_⟩
    simp only [List.all_cons, Bool.and_eq_true]
    refine ⟨isLowerAlnumC_strictLocalChar hc, ?_⟩
    rcases hrest with hemp | hall
    · have hr : rest = [] := by simpa using hemp
      simp [hr]
    · exact hall.1

/-- A strict domain head is non-empty and uses only domain characters. -/
theorem strictDomHead_all (l : Str) (h : strictDomHead l = true) :
    l ≠ [] ∧ l.all strictDomainChar = true := by
  cases l with
  | nil => exact absurd h (by decide)
  | cons c rest =>
    simp only [strictDomHead, Bool.and_eq_true, Bool.or_eq_true] at h
    obtain ⟨hc, hrest⟩ := h
    refine ⟨by simp, ?_⟩
    simp only [List.all_cons, Bool.and_eq_true]
    refine ⟨isLowerAlnumC_strictDomainChar hc, ?_⟩
    rcases hrest with hemp | hall
    · have hr : rest = [] := by simpa using hemp
      simp [hr]
    · exact hall.1

/-- A strict domain is non-empty and uses only domain characters. -/
theorem strictDomain_all (rest : Str) (h : strictDomain rest = true) :
    rest ≠ [] ∧ rest.all strictDomainChar = true := by
  have hj : joinChar '.' (splitOnChar '.' rest) = rest := joinChar_splitOnChar '.' rest
  have hcne : splitOnChar '.' rest ≠ [] := splitOnChar_ne_nil '.' rest
  simp only [strictDomain, Bool.or_eq_true, Bool.and_eq_true, decide_eq_true_eq] at h
  rcases h with ⟨⟨hlen, htld⟩, hhead⟩ | ⟨⟨⟨hlen, htld2⟩, htld1⟩, hhead⟩
  · obtain ⟨hhne, hhall⟩ := strictDomHead_all _ hhead
    have hdne : (splitOnChar '.' rest).dropLast ≠ [] := by
      have hL : (splitOnChar '.' rest).dropLast.length
          = (splitOnChar '.' rest).length - 1 := List.length_dropLast _
      intro hnil
      rw [hnil] at hL
      simp only [List.length_nil] at hL
      omega
    have hsplit : (splitOnChar '.' rest).dropLast ++ [(splitOnChar '.' rest).getLastD []]
        = splitOnChar '.' rest := dropLast_append_getLastD _ [] hcne
    have hrest : rest = joinChar '.' ((splitOnChar '.' rest).dropLast) ++
        '.' :: (splitOnChar '.' rest).getLastD [] := by
      conv_lhs => rw [← hj, ← hsplit]
      exact joinChar_append_singleton '.' _ _ hdne
    simp only [isTld26, Bool.and_eq_true, decide_eq_true_eq] at htld
    constructor
    · rw [hrest]; simp
    · rw [hrest]
      simp only [List.all_append, List.all_cons, Bool.and_eq_true]
      exact ⟨hhall, by decide,
        all_mono (fun c hc => isLowerAlphaC_strictDomainChar hc) _ htld.2⟩
  · obtain ⟨hhne, hhall⟩ := strictDomHead_all _ hhead
    have hL1 : (splitOnChar '.' rest).dropLast.length
        = (splitOnChar '.' rest).length - 1 := List.length_dropLast _
    have hL2 : (splitOnChar '.' rest).dropLast.dropLast.length
        = (splitOnChar '.' rest).dropLast.length - 1 := List.length_dropLast _
    have hdne : (splitOnChar '.' rest).dropLast ≠ [] := by
      intro hnil
      rw [hnil] at hL1
      simp only [List.length_nil] at hL1
      omega
    have hane : (splitOnChar '.' rest).dropLast.dropLast ≠ [] := by
      intro hnil
      rw [hnil] at hL2
      simp only [List.length_nil] at hL2
      omega
    have hsplit1 : (splitOnChar '.' rest).dropLast ++ [(splitOnChar '.' rest).getLastD []]
        = splitOnChar '.' rest := dropLast_append_getLastD _ [] hcne
    have hsplit2 : (splitOnChar '.' rest).dropLast.dropLast ++
        [(splitOnChar '.' rest).dropLast.getLastD []]
        = (splitOnChar '.' rest).dropLast := dropLast_append_getLastD _ [] hdne
    have hr1 : joinChar '.' (splitOnChar '.' rest)
        = joinChar '.' ((splitOnChar '.' rest).dropLast) ++
          '.' :: (splitOnChar '.' rest).getLastD [] := by
      conv_lhs => rw [← hsplit1]
      exact joinChar_append_singleton '.' _ _ hdne
    have hr2 : joinChar '.' ((splitOnChar '.' rest).dropLast)
        = joinChar '.' ((splitOnChar '.' rest).dropLast.dropLast) ++
          '.' :: (splitOnChar '.' rest).dropLast.getLastD [] := by
      conv_lhs => rw [← hsplit2]
      exact joinChar_append_singleton '.' _ _ hane
    have hrest : rest = (joinChar '.' ((splitOnChar '.' rest).dropLast.dropLast) ++
        '.' :: (splitOnChar '.' rest).dropLast.getLastD []) ++
        '.' :: (splitOnChar '.' rest).getLastD [] := by
      rw [← hr2, ← hr1, hj]
    simp only [isTld26, isTld23L, Bool.and_eq_true, decide_eq_true_eq] at htld1 htld2
    constructor
    · rw [hrest]; simp
    · rw [hrest]
      simp only [List.all_append, List.all_cons, Bool.and_eq_true]
      exact ⟨⟨hhall, by decide,
        all_mono (fun c hc => isLowerAlphaC_strictDomainChar hc) _ htld1.2⟩, by decide,
        all_mono (fun c hc => isLowerAlphaC_strictDomainChar hc) _ htld2.2⟩

/-- Destructuring a strict-regex match. -/
theorem strictMatch_parts (e : Str) (h : strictMatch e = true) :
    ∃ loc rest, splitAtFirst '@' e = some (loc, rest) ∧
      strictLocal loc = true ∧ strictDomain rest = true := by
  unfold strictMatch at h
  cases hsp : splitAtFirst '@' e with
  | none => rw [hsp] at h; simp at h
  | some lr =>
    obtain ⟨loc, rest⟩ := lr
    rw [hsp] at h
    simp only [Bool.and_eq_true] at h
    exact ⟨loc, rest, rfl, h.1, h.2⟩

/-- A strict-regex match is non-empty and uses only the characters the
pattern can accept. -/
theorem strictMatch_all (e : Str) (h : strictMatch e = true) :
    e ≠ [] ∧ e.all (fun c => strictLocalChar c || c = '@') = true := by
  obtain ⟨loc, rest, hsp, hloc, hdom⟩ := strictMatch_parts e h
  obtain ⟨heq, _⟩ := splitAtFirst_eq_some '@' e loc rest hsp
  obtain ⟨hlocne, hlocall⟩ := strictLocal_all loc hloc
  obtain ⟨hdne, hdall⟩ := strictDomain_all rest hdom
  subst heq
  constructor
  · simp
  · simp only [List.all_append, List.all_cons, Bool.and_eq_true]
    refine ⟨?_, ?_, ?_⟩
    · exact all_mono (fun c hc => by simp [hc]) loc hlocall
    · decide
    · exact all_mono (fun c hc => by simp [strictDomainChar_local hc]) rest hdall

/-- The preprocessing of `_clean_extracted_email` fixes every string the
strict regex accepts. -/
theorem cleanedForm_fixed (e : Str) (h : strictMatch e = true) :
    cleanedForm e = e := by
  obtain ⟨hne, hall⟩ := strictMatch_all e h
  rw [List.all_eq_true] at hall
  have hamp : '&' ∉ e := fun hm => absurd (hall '&' hm) (by decide)
  have hdec : decodeEntities e = e := decodeEntities_fixed e hamp
  have hstrip : stripChars stripSet e = e :=
    stripChars_fixed stripSet e hne (fun c hc => tame_not_strip c (hall c hc))
  have hmap : e.map lowerChar = e :=
    map_id_of_fixed e (fun c hc => tame_lowerChar c (hall c hc))
  simp only [cleanedForm]
  rw [hdec, hstrip, hmap]

/-- The concrete facts about `personal_domains` used in claim C3: every
entry is non-empty, ends in `'m'`, is already lower-case, and contains
neither `'@'` nor `'&'`. -/
theorem personal_domains_facts :
    ∀ d ∈ personal_domains, d ≠ [] ∧ d.getLastD '@' = 'm' ∧
      d.map lowerChar = d ∧ '@' ∉ d ∧ '&' ∉ d := by decide

/-! ## C4: strict pattern vs. general validator -/

/-- Claim C4 as stated is false at a concrete input: `a@b.info` survives
the strict pattern of cleaning step (3), whose TLD may have up to 6
letters, but is rejected by the general validator of step (4), whose TLD
is limited to 2-3 letters — the general pattern is not looser. -/
theorem c4_counterexample :
    strictMatch "a@b.info".toList = true ∧
    is_valid_email "a@b.info".toList = false := by decide

/-- Claim C4 (amended): for candidates surviving cleaning step (3), the
general validator of step (4) accepts exactly those whose final
dot-separated component has at most 3 letters; strict matches with a 4-6
letter TLD are rejected by step (4). -/
theorem c4_strict_vs_general :
    ∀ (e : Str), strictMatch e = true →
      (is_valid_email e = true ↔ tldComponentLength e ≤ 3) := by
  intro e h
  obtain ⟨loc, rest, hsp, hloc, hdom⟩ := strictMatch_parts e h
  have htldlen : tldComponentLength e
      = ((splitOnChar '.' rest).getLastD []).length := by
    unfold tldComponentLength
    rw [hsp]
  constructor
  · intro hv
    unfold is_valid_email at hv
    rw [hsp] at hv
    simp only [Bool.and_eq_true, decide_eq_true_eq] at hv
    have hD := hv.1.1.2
    rw [htldlen]
    simp only [isTld23, Bool.and_eq_true, Bool.or_eq_true, decide_eq_true_eq] at hD
    rcases hD.1 with h2 | h3 <;> omega
  · intro hle
    rw [htldlen] at hle
    unfold is_valid_email
    rw [hsp]
    simp only [Bool.and_eq_true, decide_eq_true_eq]
    obtain ⟨hlocne, hlocall⟩ := strictLocal_all loc hloc
    simp only [strictDomain, Bool.or_eq_true, Bool.and_eq_true,
      decide_eq_true_eq] at hdom
    rcases hdom with ⟨⟨hlen2, htld26⟩, hhead⟩ | ⟨⟨⟨hlen3, htld23⟩, htld26⟩, hhead⟩
    · obtain ⟨hdne, hdall⟩ := strictDomHead_all _ hhead
      simp only [isTld26, Bool.and_eq_true, decide_eq_true_eq] at htld26
      refine ⟨⟨⟨⟨⟨hlocne,
        all_mono (fun c hc => strictLocalChar_valid hc) _ hlocall⟩, hlen2⟩, ?_⟩,
        hdne⟩, all_mono (fun c hc => strictDomainChar_valid hc) _ hdall⟩
      simp only [isTld23, Bool.and_eq_true, Bool.or_eq_true, decide_eq_true_eq]
      exact ⟨by omega, all_mono (fun c hc => isLowerAlphaC_isAlphaC hc) _ htld26.2⟩
    · obtain ⟨hdne, hdall⟩ := strictDomHead_all _ hhead
      simp only [isTld23L, Bool.and_eq_true, decide_eq_true_eq] at htld23
      simp only [isTld26, Bool.and_eq_true, decide_eq_true_eq] at htld26
      have hcne : splitOnChar '.' rest ≠ [] := splitOnChar_ne_nil '.' rest
      have hL1 : (splitOnChar '.' rest).dropLast.length
          = (splitOnChar '.' rest).length - 1 := List.length_dropLast _
      have hdlne : (splitOnChar '.' rest).dropLast ≠ [] := by
        intro hnil; rw [hnil] at hL1; simp only [List.length_nil] at hL1; omega
      have hL2 : (splitOnChar '.' rest).dropLast.dropLast.length
          = (splitOnChar '.' rest).dropLast.length - 1 := List.length_dropLast _
      have hane : (splitOnChar '.' rest).dropLast.dropLast ≠ [] := by
        intro hnil; rw [hnil] at hL2; simp only [List.length_nil] at hL2; omega
      have hsplit2 : (splitOnChar '.' rest).dropLast.dropLast ++
          [(splitOnChar '.' rest).dropLast.getLastD []]
          = (splitOnChar '.' rest).dropLast := dropLast_append_getLastD _ [] hdlne
      have hr2 : joinChar '.' ((splitOnChar '.' rest).dropLast)
          = joinChar '.' ((splitOnChar '.' rest).dropLast.dropLast) ++
            '.' :: (splitOnChar '.' rest).dropLast.getLastD [] := by
        conv_lhs => rw [← hsplit2]
        exact joinChar_append_singleton '.' _ _ hane
      refine ⟨⟨⟨⟨⟨hlocne,
        all_mono (fun c hc => strictLocalChar_valid hc) _ hlocall⟩, by omega⟩, ?_⟩,
        ?_⟩, ?_⟩
      · simp only [isTld23, Bool.and_eq_true, Bool.or_eq_true, decide_eq_true_eq]
        exact ⟨by omega, all_mono (fun c hc => isLowerAlphaC_isAlphaC hc) _ htld23.2⟩
      · rw [hr2]; simp
      · rw [hr2]
        simp only [List.all_append, List.all_cons, Bool.and_eq_true]
        exact ⟨all_mono (fun c hc => strictDomainChar_valid hc) _ hdall, by decide,
          all_mono
            (fun c hc => strictDomainChar_valid (isLowerAlphaC_strictDomainChar hc))
            _ htld26.2⟩

/-- Concrete instance of C4 (amended) at `info@acme.com`. -/
theorem c4_witness :
    strictMatch "info@acme.com".toList = true ∧
    (is_valid_email "info@acme.com".toList = true ↔
      tldComponentLength "info@acme.com".toList ≤ 3) :=
  ⟨by decide, c4_strict_vs_general "info@acme.com".toList (by decide)⟩

/-! ## C10: broad spam substrings -/

/-- Claim C10: any candidate whose cleaned lower-cased form contains one
of the broad substrings `mail`, `email`, `domain`, `commercial`,
`privacy`, `subscribe` is rejected by the cleaner, regardless of syntax or
business domain. -/
theorem c10_broad_spam_rejected :
    ∀ (custom : List Str) (raw : Str),
      (∃ p ∈ broad_spam_substrings, isSubstring p (cleanedForm raw) = true) →
      clean_extracted_email custom raw = none := by
  intro custom raw hsub
  obtain ⟨p, hp, hps⟩ := hsub
  by_cases h0 : raw = []
  · simp [clean_extracted_email, h0]
  have hany : spam_patterns.any (fun q => isSubstring q (cleanedForm raw)) = true := by
    refine List.any_eq_true.mpr ⟨p, ?_, hps⟩
    have hmem : ∀ q ∈ broad_spam_substrings, q ∈ spam_patterns := by decide
    exact hmem p hp
  by_cases h1 : strictMatch (cleanedForm raw) = true
  · by_cases h2 : is_valid_email (cleanedForm raw) = true
    · by_cases h3 : is_business_email custom (cleanedForm raw) = true
      · simp [clean_extracted_email, h0, h1, h2, h3, hany]
      · simp [clean_extracted_email, h0, h1, h2, h3]
    · simp [clean_extracted_email, h0, h1, h2]
  · simp [clean_extracted_email, h0, h1]

/-- Concrete instance of C10: `contact@mailand-gmbh.de` is syntactically
fine and on a business domain, yet rejected because it contains `mail`. -/
theorem c10_witness :
    (∃ p ∈ broad_spam_substrings,
      isSubstring p (cleanedForm "contact@mailand-gmbh.de".toList) = true) ∧
    clean_extracted_email [] "contact@mailand-gmbh.de".toList = none :=
  ⟨⟨"mail".toList, by decide, by decide⟩,
    c10_broad_spam_rejected [] "contact@mailand-gmbh.de".toList
      ⟨"mail".toList, by decide, by decide⟩⟩

/-! ## C5: idempotence of the cleaner -/

/-- Claim C5: the email cleaner is idempotent — whenever cleaning a raw
candidate yields a validated email, cleaning that email again returns it
unchanged. -/
theorem c5_clean_idempotent :
    ∀ (custom : List Str) (raw e : Str),
      clean_extracted_email custom raw = some e →
      clean_extracted_email custom e = some e := by
  intro custom raw e hcl
  unfold clean_extracted_email at hcl
  by_cases h0 : raw = []
  · rw [if_pos h0] at hcl; cases hcl
  rw [if_neg h0] at hcl
  by_cases h1 : strictMatch (cleanedForm raw) = true
  case neg => rw [if_neg h1] at hcl; cases hcl
  rw [if_pos h1] at hcl
  by_cases h2 : is_valid_email (cleanedForm raw) = true
  case neg => rw [if_neg h2] at hcl; cases hcl
  rw [if_pos h2] at hcl
  by_cases h3 : is_business_email custom (cleanedForm raw) = true
  case neg => rw [if_neg h3] at hcl; cases hcl
  rw [if_pos h3] at hcl
  by_cases h4 : spam_patterns.any (fun p => isSubstring p (cleanedForm raw)) = true
  · rw [if_pos h4] at hcl; cases hcl
  rw [if_neg h4] at hcl
  obtain rfl : cleanedForm raw = e := by simpa using hcl
  have hne := (strictMatch_all _ h1).1
  have hcf := cleanedForm_fixed _ h1
  unfold clean_extracted_email
  rw [if_neg hne, hcf, if_pos h1, if_pos h2, if_pos h3, if_neg h4]

/-- Concrete instance of C5: cleaning `Info@Acme-Corp.com` yields
`info@acme-corp.com`, and cleaning that result returns it unchanged. -/
theorem c5_witness :
    clean_extracted_email [] "Info@Acme-Corp.com".toList
      = some "info@acme-corp.com".toList ∧
    clean_extracted_email [] "info@acme-corp.com".toList
      = some "info@acme-corp.com".toList :=
  ⟨by decide,
    c5_clean_idempotent [] "Info@Acme-Corp.com".toList
      "info@acme-corp.com".toList (by decide)⟩

/-! ## C3: personal domains are rejected -/

/-- Claim C3: a candidate whose domain — the part after the first `'@'`,
lower-cased — is a personal provider domain and is not in the sector's
custom business-domain set is always rejected by the cleaner. -/
theorem c3_personal_domain_rejected :
    ∀ (custom : List Str) (pre dom : Str),
      '@' ∉ pre →
      dom.map lowerChar ∈ personal_domains →
      dom.map lowerChar ∉ custom →
      clean_extracted_email custom (pre ++ '@' :: dom) = none := by
  intro custom pre dom hpre hper hcust
  obtain ⟨hpne, hplast, hplow, hpat, hpamp⟩ := personal_domains_facts _ hper
  have hdomne : dom ≠ [] := by
    intro hnil
    exact hpne (by simp [hnil])
  have hampdom : '&' ∉ dom := by
    intro hm
    have h1 : lowerChar '&' ∈ dom.map lowerChar := List.mem_map_of_mem lowerChar hm
    rw [show lowerChar '&' = '&' from by decide] at h1
    exact hpamp h1
  have hlaststrip : stripSet.contains (dom.getLastD '@') = false := by
    have h1 : (dom.map lowerChar).getLastD (lowerChar '@')
        = lowerChar (dom.getLastD '@') := List.getLastD_map lowerChar dom '@'
    rw [show lowerChar '@' = '@' from by decide] at h1
    rw [hplast] at h1
    exact lowerChar_m_not_strip _ h1.symm
  obtain ⟨p1, hdec⟩ := decodeEntities_boundary pre dom hampdom
  obtain ⟨p2, hstrip⟩ := stripChars_append_cons p1 dom hdomne hlaststrip
  have hclean : cleanedForm (pre ++ '@' :: dom)
      = p2.map lowerChar ++ '@' :: dom.map lowerChar := by
    simp only [cleanedForm]
    rw [hdec, hstrip, List.map_append, List.map_cons]
    rw [show lowerChar '@' = '@' from by decide]
  have hne : pre ++ '@' :: dom ≠ [] := by simp
  unfold clean_extracted_email
  rw [if_neg hne]
  by_cases h1 : strictMatch (cleanedForm (pre ++ '@' :: dom)) = true
  case neg => rw [if_neg h1]
  rw [if_pos h1]
  by_cases h2 : is_valid_email (cleanedForm (pre ++ '@' :: dom)) = true
  case neg => rw [if_neg h2]
  rw [if_pos h2]
  have hbiz : is_business_email custom (cleanedForm (pre ++ '@' :: dom)) = false := by
    obtain ⟨loc, rest, hsp, hloc, hdomS⟩ := strictMatch_parts _ h1
    obtain ⟨hEeq, hlocat⟩ := splitAtFirst_eq_some '@' _ loc rest hsp
    have hrestat : '@' ∉ rest := by
      have hall := (strictDomain_all rest hdomS).2
      rw [List.all_eq_true] at hall
      intro hm
      exact absurd (hall '@' hm) (by decide)
    have hdecomp : loc ++ '@' :: rest
        = p2.map lowerChar ++ '@' :: dom.map lowerChar := by
      rw [← hEeq, hclean]
    obtain ⟨hloceq, hresteq⟩ := append_cons_unique '@' loc rest (p2.map lowerChar)
      (dom.map lowerChar) hdecomp hlocat hrestat
    unfold is_business_email
    have hatE : '@' ∈ cleanedForm (pre ++ '@' :: dom) := by
      rw [hclean]
      exact List.mem_append_right _ (List.mem_cons_self '@' _)
    rw [if_neg (fun hno => hno hatE)]
    have hsplitE : splitOnChar '@' (cleanedForm (pre ++ '@' :: dom)) = [loc, rest] := by
      rw [hEeq]
      exact splitOnChar_sandwich '@' loc rest hlocat hrestat
    have hatIdx : atIndexOne (cleanedForm (pre ++ '@' :: dom)) = some rest := by
      simp only [atIndexOne, hsplitE]
      rfl
    simp only [hatIdx]
    rw [hresteq, hplow]
    rw [if_neg hcust]
    simp [hper]
  rw [if_neg (fun hcon => by rw [hbiz] at hcon; exact absurd hcon (by decide))]

/-- Concrete instance of C3: `user@gmail.com` is rejected. -/
theorem c3_witness :
    ('@' ∉ "user".toList) ∧
    clean_extracted_email [] ("user".toList ++ '@' :: "gmail.com".toList) = none :=
  ⟨by decide, c3_personal_domain_rejected [] "user".toList "gmail.com".toList
    (by decide) (by decide) (by decide)⟩

end Scrape
